import Mathlib

/-!
Verification of the Merkle-sum-tree solvency circuit (`src/circuits/merkle_sum_tree.rs`).

The repository's `synthesize` orchestrator is embedded directly from the Rust
source.  The `MerkleSumTreeChip` it calls (per-level gate, `expose_public`,
`enforce_less_than`) is not part of the sources; those parts are modelled from
the specification (sections 4.1, 4.3, 6), with the host-side swap assignment
pinned down by the cell values recorded in the repository's own tests.

The field is `ZMod p`; the external hash compression function is an abstract
parameter `compress`.
-/

namespace SummaSolvency

/-- Mirror of the Rust struct `MerkleSumTreeCircuit<F>`: a leaf `(hash, balance)`
pair, three parallel vectors holding one proof step per tree level
(sibling hash, sibling subtree sum, path index), and the two public fields
`assets_sum` and `root_hash`. -/
structure MerkleSumTreeCircuit (F : Type) where
  leaf_hash : F
  leaf_balance : F
  path_element_hashes : List F
  path_element_balances : List F
  path_indices : List F
  assets_sum : F
  root_hash : F
deriving Repr, DecidableEq

/-- Mirror of Rust `#[derive(Default)]` for the circuit: zero field elements and
empty vectors. -/
def defaultCircuit {F : Type} [Zero F] : MerkleSumTreeCircuit F :=
  { leaf_hash := 0
    leaf_balance := 0
    path_element_hashes := []
    path_element_balances := []
    path_indices := []
    assets_sum := 0
    root_hash := 0 }

/-- Mirror of `fn without_witnesses(&self) -> Self { Self::default() }`. -/
def without_witnesses {F : Type} [Zero F]
    (_self : MerkleSumTreeCircuit F) : MerkleSumTreeCircuit F :=
  defaultCircuit

/-- The advice cells produced by one invocation of the chip's
`merkle_prove_layer` region: row 0 holds the incoming node pair, the sibling
pair and the path bit; row 1 holds the swapped left/right pairs; the computed
next hash and next running sum are the region's outputs. -/
structure LayerCells (F : Type) where
  node_hash : F
  node_sum : F
  sibling_hash : F
  sibling_sum : F
  path_bit : F
  left_hash : F
  left_sum : F
  right_hash : F
  right_sum : F
  next_hash : F
  next_sum : F
deriving Repr, DecidableEq

variable {p : ℕ}

/-- Modelled from the spec: the chip's host-side witness assignment for one
`merkle prove layer` region (the chip itself is outside the given sources).
The spec (section 4.1) fixes the honest assignment for boolean bits; the cell
values asserted by `test_non_binary_index` in the sources show that the host
assignment swaps the pairs for every nonzero bit (with bit `0x2` row 1 holds
exactly the swapped values).  The next hash is the external compression of the
left and right hashes and the next sum is the plain field sum. -/
def synthLayer (compress : ZMod p → ZMod p → ZMod p)
    (h s sh ss b : ZMod p) : LayerCells (ZMod p) :=
  if b = 0 then
    { node_hash := h, node_sum := s, sibling_hash := sh, sibling_sum := ss
      path_bit := b
      left_hash := h, left_sum := s, right_hash := sh, right_sum := ss
      next_hash := compress h sh, next_sum := s + ss }
  else
    { node_hash := h, node_sum := s, sibling_hash := sh, sibling_sum := ss
      path_bit := b
      left_hash := sh, left_sum := ss, right_hash := h, right_sum := s
      next_hash := compress sh h, next_sum := ss + s }

/-- The level loop of `synthesize`: the Rust code runs one `merkle_prove_layer`
per index `i in 0..path_element_balances.len()`, reading
`path_element_hashes[i]` and `path_indices[i]`; an out-of-bounds read is a host
panic, modelled as `none`.  Elements of the hash/index vectors beyond the
length of the balance vector are never read. -/
def synthLevels (compress : ZMod p → ZMod p → ZMod p) :
    List (ZMod p) → List (ZMod p) → List (ZMod p) → ZMod p → ZMod p →
    Option (List (LayerCells (ZMod p)) × ZMod p × ZMod p)
  | _, [], _, h, s => some ([], h, s)
  | sh :: peh, ss :: peb, b :: pib, h, s =>
    let L := synthLayer compress h s sh ss b
    (synthLevels compress peh peb pib L.next_hash L.next_sum).map
      (fun r => (L :: r.1, r.2))
  | [], _ :: _, _, _, _ => none
  | _ :: _, _ :: _, [], _, _ => none

/-- Mirror of `MerkleSumTreeCircuit::synthesize`: assign the leaf pair, run the
per-level gate once per proof step starting from the leaf pair, threading the
running `(hash, sum)` pair forward.  Level 0 runs unconditionally in the Rust
code (it indexes `[0]` before the loop), so an empty balance vector is a host
panic, modelled as `none`.  Returns the layer traces together with the final
`(hash, sum)` pair.  Note that `self.root_hash` and `self.assets_sum` are never
read. -/
def synthesize (compress : ZMod p → ZMod p → ZMod p)
    (c : MerkleSumTreeCircuit (ZMod p)) :
    Option (List (LayerCells (ZMod p)) × ZMod p × ZMod p) :=
  match c.path_element_balances with
  | [] => none
  | _ :: _ =>
    synthLevels compress c.path_element_hashes c.path_element_balances
      c.path_indices c.leaf_hash c.leaf_balance

/-- Modelled from the spec: the external bounded comparator interface
(section 6), `IsLess(a, b)` for field elements read as the integers they
represent.  The `LtChip` realising it is outside the given sources. -/
def isLess (a b : ZMod p) : Bool :=
  decide (a.val < b.val)

/-- Modelled from the spec: the polynomial constraints of one per-level gate
(section 4.1) evaluated on the synthesized cells — the boolean constraint on
the path bit, the four arithmetic-mux swap identities, the hash-compression
wiring and the sum aggregation. -/
def layerOk (compress : ZMod p → ZMod p → ZMod p)
    (L : LayerCells (ZMod p)) : Bool :=
  decide (L.path_bit * (1 - L.path_bit) = 0) &&
  decide (L.left_hash = L.node_hash + L.path_bit * (L.sibling_hash - L.node_hash)) &&
  decide (L.right_hash = L.sibling_hash + L.path_bit * (L.node_hash - L.sibling_hash)) &&
  decide (L.left_sum = L.node_sum + L.path_bit * (L.sibling_sum - L.node_sum)) &&
  decide (L.right_sum = L.sibling_sum + L.path_bit * (L.node_sum - L.sibling_sum)) &&
  decide (L.next_hash = compress L.left_hash L.right_hash) &&
  decide (L.next_sum = L.left_sum + L.right_sum)

/-- Verification of one circuit instance against the public input vector
`[a0, a1, a2, a3] = [leaf_hash, leaf_balance, root_hash, assets_sum]`
(the mock-prover semantics: the advice assignment is the one produced by
`synthesize`, and the checks are the gate polynomials plus the copy
constraints installed by `expose_public` at instance rows 0, 1, 2 and by
`enforce_less_than` against instance row 3).  A host panic during synthesis
means no proof is produced, hence rejection. -/
def verify (compress : ZMod p → ZMod p → ZMod p)
    (c : MerkleSumTreeCircuit (ZMod p)) (a0 a1 a2 a3 : ZMod p) : Bool :=
  match synthesize compress c with
  | none => false
  | some (layers, fh, fs) =>
    decide (c.leaf_hash = a0) && decide (c.leaf_balance = a1) &&
    layers.all (layerOk compress) &&
    decide (fh = a2) && isLess fs a3

/-- The proof steps of a circuit instance, as the list of
`(sibling_hash, sibling_sum, path_bit)` triples actually consumed by the level
loop. -/
def circuitSteps (c : MerkleSumTreeCircuit (ZMod p)) :
    List (ZMod p × ZMod p × ZMod p) :=
  c.path_element_hashes.zip (c.path_element_balances.zip c.path_indices)

/-- One step of the specification-level Merkle-sum fold (spec section 4.1):
with path bit 0 the current node is the left child, with any other
(intended: bit 1) it is the right child; the hash is compressed in that order
and the sums add. -/
def specStep (compress : ZMod p → ZMod p → ZMod p)
    (acc : ZMod p × ZMod p) (st : ZMod p × ZMod p × ZMod p) :
    ZMod p × ZMod p :=
  if st.2.2 = 0 then (compress acc.1 st.1, acc.2 + st.2.1)
  else (compress st.1 acc.1, st.2.1 + acc.2)

/-- The specification-level root computation: fold the per-level step over the
ordered proof steps starting from the leaf pair. -/
def specFold (compress : ZMod p → ZMod p → ZMod p)
    (acc : ZMod p × ZMod p) (sts : List (ZMod p × ZMod p × ZMod p)) :
    ZMod p × ZMod p :=
  sts.foldl (specStep compress) acc

/-- Modelled from the spec: a witness is a valid Merkle-sum path from the given
leaf pair to the given root when every path bit is boolean and the fold of the
proof steps reproduces the root (spec sections 4.1 and 4.2). -/
def validMerkleSumPath (compress : ZMod p → ZMod p → ZMod p)
    (lh lb root : ZMod p) (sts : List (ZMod p × ZMod p × ZMod p)) : Prop :=
  (∀ st ∈ sts, st.2.2 = 0 ∨ st.2.2 = 1) ∧
  (specFold compress (lh, lb) sts).1 = root

instance (compress : ZMod p → ZMod p → ZMod p)
    (lh lb root : ZMod p) (sts : List (ZMod p × ZMod p × ZMod p)) :
    Decidable (validMerkleSumPath compress lh lb root sts) := by
  unfold validMerkleSumPath
  infer_instance

/-- The sequence of layer cell records produced by running the per-level
assignment over a list of proof steps. -/
def traceOf (compress : ZMod p → ZMod p → ZMod p) :
    ZMod p × ZMod p → List (ZMod p × ZMod p × ZMod p) →
    List (LayerCells (ZMod p))
  | _, [] => []
  | acc, st :: sts =>
    let L := synthLayer compress acc.1 acc.2 st.1 st.2.1 st.2.2
    L :: traceOf compress (L.next_hash, L.next_sum) sts

lemma synthLayer_next (compress : ZMod p → ZMod p → ZMod p)
    (h s sh ss b : ZMod p) :
    ((synthLayer compress h s sh ss b).next_hash,
      (synthLayer compress h s sh ss b).next_sum) =
      specStep compress (h, s) (sh, ss, b) := by
  by_cases hb : b = 0 <;> simp [synthLayer, specStep, hb]

lemma synthLevels_eq (compress : ZMod p → ZMod p → ZMod p)
    (peb : List (ZMod p)) :
    ∀ (peh pib : List (ZMod p)) (h s : ZMod p),
      peb.length ≤ peh.length → peb.length ≤ pib.length →
      synthLevels compress peh peb pib h s =
        some (traceOf compress (h, s) (peh.zip (peb.zip pib)),
          specFold compress (h, s) (peh.zip (peb.zip pib))) := by
  induction peb with
  | nil =>
    intro peh pib h s _ _
    cases peh <;> cases pib <;> rfl
  | cons ss peb ih =>
    intro peh pib h s h1 h2
    cases peh with
    | nil => simp at h1
    | cons sh peh =>
      cases pib with
      | nil => simp at h2
      | cons b pib =>
        simp only [List.length_cons, Nat.add_le_add_iff_right] at h1 h2
        have hstep := synthLayer_next compress h s sh ss b
        simp only [synthLevels, List.zip_cons_cons, traceOf, specFold,
          List.foldl_cons]
        rw [ih peh pib _ _ h1 h2]
        rw [Option.map_some', ← hstep]
        rfl

lemma synthesize_eq_some (compress : ZMod p → ZMod p → ZMod p)
    (c : MerkleSumTreeCircuit (ZMod p))
    (h1 : c.path_element_balances.length ≤ c.path_element_hashes.length)
    (h2 : c.path_element_balances.length ≤ c.path_indices.length)
    (h3 : c.path_element_balances ≠ []) :
    synthesize compress c =
      some (traceOf compress (c.leaf_hash, c.leaf_balance) (circuitSteps c),
        specFold compress (c.leaf_hash, c.leaf_balance) (circuitSteps c)) := by
  unfold synthesize
  split
  · next heq => exact absurd heq h3
  · next heq =>
    exact synthLevels_eq compress c.path_element_balances
      c.path_element_hashes c.path_indices _ _ h1 h2

lemma synthLevels_none_iff (compress : ZMod p → ZMod p → ZMod p)
    (peb : List (ZMod p)) :
    ∀ (peh pib : List (ZMod p)) (h s : ZMod p),
      synthLevels compress peh peb pib h s = none ↔
        (peh.length < peb.length ∨ pib.length < peb.length) := by
  induction peb with
  | nil => intro peh pib h s; simp [synthLevels]
  | cons ss peb ih =>
    intro peh pib h s
    cases peh with
    | nil => simp [synthLevels]
    | cons sh peh =>
      cases pib with
      | nil => simp [synthLevels]
      | cons b pib =>
        simp only [synthLevels, Option.map_eq_none', List.length_cons,
          Nat.add_lt_add_iff_right]
        exact ih peh pib _ _

lemma layerOk_synthLayer_iff [Fact p.Prime]
    (compress : ZMod p → ZMod p → ZMod p) (h s sh ss b : ZMod p) :
    layerOk compress (synthLayer compress h s sh ss b) = true ↔
      (b = 0 ∨ b = 1) := by
  by_cases hb : b = 0
  · subst hb
    simp [synthLayer, layerOk]
  · constructor
    · intro hok
      simp only [synthLayer, if_neg hb, layerOk, Bool.and_eq_true,
        decide_eq_true_eq] at hok
      have hbool := hok.1.1.1.1.1.1
      rcases mul_eq_zero.mp hbool with h0 | h1
      · exact absurd h0 hb
      · right
        have : (1 : ZMod p) = b := by linear_combination h1
        exact this.symm
    · intro hb1
      rcases hb1 with h0 | h1
      · exact absurd h0 hb
      · subst h1
        simp only [synthLayer, if_neg hb, layerOk, Bool.and_eq_true,
          decide_eq_true_eq]
        refine ⟨⟨⟨⟨⟨⟨?_, ?_⟩, ?_⟩, ?_⟩, ?_⟩, ?_⟩, ?_⟩ <;> ring_nf

lemma traceOf_all_iff [Fact p.Prime]
    (compress : ZMod p → ZMod p → ZMod p)
    (sts : List (ZMod p × ZMod p × ZMod p)) :
    ∀ acc : ZMod p × ZMod p,
      (traceOf compress acc sts).all (layerOk compress) = true ↔
        ∀ st ∈ sts, st.2.2 = 0 ∨ st.2.2 = 1 := by
  induction sts with
  | nil => intro acc; simp [traceOf]
  | cons st sts ih =>
    intro acc
    simp only [traceOf, List.all_cons, Bool.and_eq_true, List.mem_cons]
    rw [layerOk_synthLayer_iff, ih]
    constructor
    · rintro ⟨hhd, htl⟩ x (rfl | hx)
      · exact hhd
      · exact htl x hx
    · intro hall
      exact ⟨hall st (Or.inl rfl), fun x hx => hall x (Or.inr hx)⟩

lemma verify_iff [Fact p.Prime] (compress : ZMod p → ZMod p → ZMod p)
    (c : MerkleSumTreeCircuit (ZMod p)) (a0 a1 a2 a3 : ZMod p)
    (h1 : c.path_element_balances.length ≤ c.path_element_hashes.length)
    (h2 : c.path_element_balances.length ≤ c.path_indices.length)
    (h3 : c.path_element_balances ≠ []) :
    verify compress c a0 a1 a2 a3 = true ↔
      c.leaf_hash = a0 ∧ c.leaf_balance = a1 ∧
      (∀ st ∈ circuitSteps c, st.2.2 = 0 ∨ st.2.2 = 1) ∧
      (specFold compress (c.leaf_hash, c.leaf_balance) (circuitSteps c)).1 = a2 ∧
      (specFold compress (c.leaf_hash, c.leaf_balance) (circuitSteps c)).2.val
        < a3.val := by
  rw [verify, synthesize_eq_some compress c h1 h2 h3]
  simp only [Bool.and_eq_true, decide_eq_true_eq, isLess,
    traceOf_all_iff compress (circuitSteps c)]
  tauto

lemma verify_eq_of_synth (compress : ZMod p → ZMod p → ZMod p)
    (c : MerkleSumTreeCircuit (ZMod p)) (a0 a1 a2 a3 : ZMod p)
    (layers : List (LayerCells (ZMod p))) (fh fs : ZMod p)
    (hs : synthesize compress c = some (layers, fh, fs)) :
    verify compress c a0 a1 a2 a3 =
      (decide (c.leaf_hash = a0) && decide (c.leaf_balance = a1) &&
        layers.all (layerOk compress) && decide (fh = a2) && isLess fs a3) := by
  unfold verify
  rw [hs]

lemma verify_eq_false_of_none (compress : ZMod p → ZMod p → ZMod p)
    (c : MerkleSumTreeCircuit (ZMod p)) (a0 a1 a2 a3 : ZMod p)
    (hs : synthesize compress c = none) :
    verify compress c a0 a1 a2 a3 = false := by
  unfold verify
  rw [hs]

lemma specFold_snd (compress : ZMod p → ZMod p → ZMod p)
    (sts : List (ZMod p × ZMod p × ZMod p)) :
    ∀ (h h' s : ZMod p),
      (specFold compress (h, s) sts).2 = (specFold compress (h', s) sts).2 := by
  induction sts with
  | nil => intro h h' s; rfl
  | cons st sts ih =>
    intro h h' s
    simp only [specFold, List.foldl_cons]
    by_cases hb : st.2.2 = 0 <;> simp only [specStep, hb, if_true, if_false] <;>
      exact ih _ _ _

/-! Concrete fixtures used by the witnesses and counterexamples: a small prime
field, an order-sensitive compression function, and a depth-one circuit
instance with leaf pair `(1, 2)`, sibling pair `(3, 4)`, path bit `0`.  Its
computed root is `compressEx 1 3 = 16` and its final sum is `6`. -/

def compressEx : ZMod 101 → ZMod 101 → ZMod 101 := fun a b => 2 * a + 3 * b + 5

instance : Fact (Nat.Prime 101) := ⟨by norm_num⟩

def cValid : MerkleSumTreeCircuit (ZMod 101) :=
  { leaf_hash := 1, leaf_balance := 2
    path_element_hashes := [3], path_element_balances := [4], path_indices := [0]
    assets_sum := 50, root_hash := 16 }

def cLowAssets : MerkleSumTreeCircuit (ZMod 101) :=
  { cValid with assets_sum := 5 }

def cBadRoot : MerkleSumTreeCircuit (ZMod 101) :=
  { cValid with root_hash := 99 }

def cBadBit : MerkleSumTreeCircuit (ZMod 101) :=
  { cValid with path_indices := [2] }

def traceValid : List (LayerCells (ZMod 101)) :=
  [⟨1, 2, 3, 4, 0, 1, 2, 3, 4, 16, 6⟩]

/-- Claim C1: checked against the public input vector
`[leaf_hash, leaf_balance, root_hash, assets_sum]`, the constraint system
produced by `MerkleSumTreeCircuit::synthesize` has a satisfying assignment iff
the witness is a valid Merkle-sum path from the given leaf to the given public
root and the aggregated final sum is strictly less than `assets_sum`.  The
structural hypotheses are the witness contract of spec section 3 (one proof
step per level, at least one level). -/
theorem circuit_satisfiability_iff [Fact p.Prime]
    (compress : ZMod p → ZMod p → ZMod p) (c : MerkleSumTreeCircuit (ZMod p))
    (h1 : c.path_element_balances.length ≤ c.path_element_hashes.length)
    (h2 : c.path_element_balances.length ≤ c.path_indices.length)
    (h3 : c.path_element_balances ≠ []) :
    verify compress c c.leaf_hash c.leaf_balance c.root_hash c.assets_sum
        = true ↔
      (validMerkleSumPath compress c.leaf_hash c.leaf_balance c.root_hash
          (circuitSteps c) ∧
        (specFold compress (c.leaf_hash, c.leaf_balance)
            (circuitSteps c)).2.val < c.assets_sum.val) := by
  rw [verify_iff compress c _ _ _ _ h1 h2 h3]
  unfold validMerkleSumPath
  tauto

/-- Witness for C1: the honest depth-one instance satisfies both sides of the
equivalence; concretely, verification succeeds. -/
theorem circuit_satisfiability_iff_witness :
    verify compressEx cValid cValid.leaf_hash cValid.leaf_balance
      cValid.root_hash cValid.assets_sum = true :=
  (circuit_satisfiability_iff compressEx cValid (by decide) (by decide)
    (by decide)).mpr (by decide)

/-- Claim C2, counterexample: the claim says every witness whose aggregated
final sum is strictly below `assets_sum` verifies, but a witness with a small
final sum and a broken root binding is rejected: `cBadRoot` has final sum `6`,
`assets_sum = 50`, yet verification fails. -/
theorem solvency_strictness_cex :
    (synthesize compressEx cBadRoot).map (fun r => r.2.2) = some (6 : ZMod 101) ∧
    (6 : ZMod 101).val < cBadRoot.assets_sum.val ∧
    verify compressEx cBadRoot cBadRoot.leaf_hash cBadRoot.leaf_balance
      cBadRoot.root_hash cBadRoot.assets_sum = false := by
  decide

/-- Claim C2 (amended): for every witness whose aggregated final sum equals or
exceeds the public `assets_sum` verification fails (strict less-than, zero
margin rejected); for every otherwise-valid witness (valid Merkle-sum path to
the public root) verification succeeds iff the final sum is strictly below
`assets_sum`. -/
theorem solvency_strictness_amended [Fact p.Prime]
    (compress : ZMod p → ZMod p → ZMod p) (c : MerkleSumTreeCircuit (ZMod p))
    (h1 : c.path_element_balances.length ≤ c.path_element_hashes.length)
    (h2 : c.path_element_balances.length ≤ c.path_indices.length)
    (h3 : c.path_element_balances ≠ []) :
    (c.assets_sum.val ≤
        (specFold compress (c.leaf_hash, c.leaf_balance) (circuitSteps c)).2.val →
      verify compress c c.leaf_hash c.leaf_balance c.root_hash c.assets_sum
        = false) ∧
    (validMerkleSumPath compress c.leaf_hash c.leaf_balance c.root_hash
        (circuitSteps c) →
      (verify compress c c.leaf_hash c.leaf_balance c.root_hash c.assets_sum
          = true ↔
        (specFold compress (c.leaf_hash, c.leaf_balance)
            (circuitSteps c)).2.val < c.assets_sum.val)) := by
  constructor
  · intro hge
    rcases Bool.eq_false_or_eq_true
        (verify compress c c.leaf_hash c.leaf_balance c.root_hash c.assets_sum)
      with ht | hf
    · rw [verify_iff compress c _ _ _ _ h1 h2 h3] at ht
      exact absurd ht.2.2.2.2 (not_lt.mpr hge)
    · exact hf
  · intro hvalid
    rw [verify_iff compress c _ _ _ _ h1 h2 h3]
    unfold validMerkleSumPath at hvalid
    tauto

/-- Witness for the amended C2: with `assets_sum = 5 ≤ 6` the instance is
rejected; with `assets_sum = 50 > 6` the otherwise-valid instance verifies. -/
theorem solvency_strictness_amended_witness :
    verify compressEx cLowAssets cLowAssets.leaf_hash cLowAssets.leaf_balance
        cLowAssets.root_hash cLowAssets.assets_sum = false ∧
    verify compressEx cValid cValid.leaf_hash cValid.leaf_balance
        cValid.root_hash cValid.assets_sum = true :=
  ⟨(solvency_strictness_amended compressEx cLowAssets (by decide) (by decide)
      (by decide)).1 (by decide),
    ((solvency_strictness_amended compressEx cValid (by decide) (by decide)
      (by decide)).2 (by decide)).mpr (by decide)⟩

/-- Claim C3: the public `assets_sum` — the fourth slot of the public input
vector — is the exact value the solvency-bound gate compares the final running
sum against: verification succeeding forces `final_sum < slot 3`, and any
slot-3 value not exceeding the final sum makes verification fail, whatever the
other slots hold. -/
theorem assets_sum_bound_binding (compress : ZMod p → ZMod p → ZMod p)
    (c : MerkleSumTreeCircuit (ZMod p))
    (layers : List (LayerCells (ZMod p))) (fh fs : ZMod p)
    (hsynth : synthesize compress c = some (layers, fh, fs))
    (a0 a1 a2 a3 : ZMod p) :
    (verify compress c a0 a1 a2 a3 = true → fs.val < a3.val) ∧
    (a3.val ≤ fs.val → verify compress c a0 a1 a2 a3 = false) := by
  rw [verify_eq_of_synth compress c a0 a1 a2 a3 layers fh fs hsynth]
  constructor
  · intro hv
    simp only [Bool.and_eq_true, decide_eq_true_eq, isLess] at hv
    exact hv.2
  · intro hge
    have hlt : decide (fs.val < a3.val) = false :=
      decide_eq_false (not_lt.mpr hge)
    simp [isLess, hlt]

/-- Witness for C3: lowering slot 3 to `5 ≤ 6` (final sum) rejects the
otherwise-honest instance. -/
theorem assets_sum_bound_binding_witness :
    verify compressEx cValid 1 2 16 5 = false :=
  (assets_sum_bound_binding compressEx cValid traceValid 16 6 (by decide)
    1 2 16 5).2 (by decide)

lemma circuitSteps_bits (c : MerkleSumTreeCircuit (ZMod p))
    (h1 : c.path_element_hashes.length = c.path_element_balances.length)
    (h2 : c.path_indices.length = c.path_element_balances.length) :
    (circuitSteps c).map (fun st => st.2.2) = c.path_indices := by
  unfold circuitSteps
  have hz : (c.path_element_balances.zip c.path_indices).length =
      c.path_indices.length := by
    rw [List.length_zip, h2, Nat.min_self]
  rw [show (fun st : ZMod p × ZMod p × ZMod p => st.2.2) =
      (Prod.snd ∘ Prod.snd) from rfl]
  rw [← List.map_map, List.map_snd_zip _ _ (by rw [hz, h2, h1]),
    List.map_snd_zip _ _ (le_of_eq h2)]

/-- Claim C4: a witness in which some path bit at any level is neither 0 nor 1
makes the constraint system unsatisfiable — the per-level boolean constraint
`path_bit * (1 - path_bit) = 0` is violated and verification rejects against
every public input vector. -/
theorem non_binary_path_bit_rejected [Fact p.Prime]
    (compress : ZMod p → ZMod p → ZMod p) (c : MerkleSumTreeCircuit (ZMod p))
    (h1 : c.path_element_hashes.length = c.path_element_balances.length)
    (h2 : c.path_indices.length = c.path_element_balances.length)
    (b : ZMod p) (hb : b ∈ c.path_indices) (hb0 : b ≠ 0) (hb1 : b ≠ 1)
    (a0 a1 a2 a3 : ZMod p) :
    verify compress c a0 a1 a2 a3 = false := by
  have hpine : c.path_indices ≠ [] := List.ne_nil_of_mem hb
  have h3 : c.path_element_balances ≠ [] := by
    intro hnil
    rw [hnil] at h2
    exact hpine (List.eq_nil_of_length_eq_zero h2)
  rcases Bool.eq_false_or_eq_true (verify compress c a0 a1 a2 a3) with ht | hf
  · rw [verify_iff compress c _ _ _ _ (le_of_eq h1.symm) (le_of_eq h2.symm)
      h3] at ht
    have hbits := ht.2.2.1
    rw [← circuitSteps_bits c h1 h2] at hb
    obtain ⟨st, hst, hstb⟩ := List.mem_map.mp hb
    rcases hbits st hst with h0 | hone
    · exact absurd (hstb ▸ h0) hb0
    · exact absurd (hstb ▸ hone) hb1
  · exact hf

/-- Witness for C4: the depth-one instance with path bit 2 is rejected. -/
theorem non_binary_path_bit_rejected_witness :
    verify compressEx cBadBit 1 2 16 50 = false :=
  non_binary_path_bit_rejected compressEx cBadBit (by decide) (by decide)
    2 (by decide) (by decide) (by decide) 1 2 16 50

/-- Claim C5: for a witness that verifies against the public vector
`[a0, a1, a2, a3]`, changing any one of the first three slots (public leaf
hash, public leaf balance, public root hash) while leaving the witness
unchanged makes verification fail — the assigned leaf cells and the computed
root cell are copy-constrained to instance rows 0, 1, 2. -/
theorem public_slot_binding_rejects_changes
    (compress : ZMod p → ZMod p → ZMod p) (c : MerkleSumTreeCircuit (ZMod p))
    (a0 a1 a2 a3 : ZMod p)
    (hv : verify compress c a0 a1 a2 a3 = true) :
    (∀ x : ZMod p, x ≠ a0 → verify compress c x a1 a2 a3 = false) ∧
    (∀ x : ZMod p, x ≠ a1 → verify compress c a0 x a2 a3 = false) ∧
    (∀ x : ZMod p, x ≠ a2 → verify compress c a0 a1 x a3 = false) := by
  cases hsynth : synthesize compress c with
  | none =>
    rw [verify_eq_false_of_none compress c a0 a1 a2 a3 hsynth] at hv
    cases hv
  | some r =>
    obtain ⟨layers, fh, fs⟩ := r
    rw [verify_eq_of_synth compress c a0 a1 a2 a3 layers fh fs hsynth] at hv
    simp only [Bool.and_eq_true, decide_eq_true_eq] at hv
    obtain ⟨⟨⟨⟨hl0, hl1⟩, hall⟩, hroot⟩, hlt⟩ := hv
    refine ⟨?_, ?_, ?_⟩ <;> intro x hx
    · rw [verify_eq_of_synth compress c x a1 a2 a3 layers fh fs hsynth]
      have hne : decide (c.leaf_hash = x) = false :=
        decide_eq_false (fun hh => hx ((hl0 ▸ hh).symm))
      simp [hne]
    · rw [verify_eq_of_synth compress c a0 x a2 a3 layers fh fs hsynth]
      have hne : decide (c.leaf_balance = x) = false :=
        decide_eq_false (fun hh => hx ((hl1 ▸ hh).symm))
      simp [hne]
    · rw [verify_eq_of_synth compress c a0 a1 x a3 layers fh fs hsynth]
      have hne : decide (fh = x) = false :=
        decide_eq_false (fun hh => hx ((hroot ▸ hh).symm))
      simp [hne]

/-- Witness for C5: perturbing each of the three bound slots of the honest
instance in turn is rejected. -/
theorem public_slot_binding_rejects_changes_witness :
    verify compressEx cValid 7 2 16 50 = false ∧
    verify compressEx cValid 1 7 16 50 = false ∧
    verify compressEx cValid 1 2 7 50 = false := by
  have h := public_slot_binding_rejects_changes compressEx cValid 1 2 16 50
    (by decide)
  exact ⟨h.1 7 (by decide), h.2.1 7 (by decide), h.2.2 7 (by decide)⟩

/-- Claim C6, counterexample: the claim says an instance whose number of proof
steps differs from the configured tree depth is rejected by a host-level
precondition check before synthesis; but the depth-one instance (one proof
step, against the repository's depth-4 tree configuration) synthesizes
successfully — no host-level check exists — and even verifies against its own
root. -/
theorem host_precondition_cex :
    cValid.path_element_balances.length ≠ 4 ∧
    synthesize compressEx cValid ≠ none ∧
    verify compressEx cValid cValid.leaf_hash cValid.leaf_balance
      cValid.root_hash cValid.assets_sum = true := by
  decide

/-- Claim C6 (amended): the orchestrator performs no host-level precondition
check; witness synthesis aborts (a host panic while indexing, modelled as
`none`) exactly when the balance vector is empty or the hash/index vectors are
shorter than it, and every other instance — whatever its number of proof
steps — proceeds to constraint synthesis, where rejection happens (if at all)
only through unsatisfied constraints. -/
theorem synthesize_failure_characterization
    (compress : ZMod p → ZMod p → ZMod p) (c : MerkleSumTreeCircuit (ZMod p)) :
    synthesize compress c = none ↔
      (c.path_element_balances = [] ∨
        c.path_element_hashes.length < c.path_element_balances.length ∨
        c.path_indices.length < c.path_element_balances.length) := by
  unfold synthesize
  split
  · next heq => simp [heq]
  · next heq =>
    rw [synthLevels_none_iff]
    simp [heq]

lemma specFold_snd_congr (compress : ZMod p → ZMod p → ZMod p)
    (sts : List (ZMod p × ZMod p × ZMod p)) (x y : ZMod p × ZMod p)
    (hsum : x.2 = y.2) :
    (specFold compress x sts).2 = (specFold compress y sts).2 := by
  obtain ⟨x1, x2⟩ := x
  obtain ⟨y1, y2⟩ := y
  simp only at hsum
  subst hsum
  exact specFold_snd compress sts x1 y1 x2

/-- Claim C7: flipping the path bit at level 0 of a verifying witness to its
complement, with all sibling hashes and sums unchanged, keeps every per-level
boolean and swap constraint satisfied and leaves the aggregated final sum
unchanged, but verification fails at the binding of the computed final root to
the public root slot whenever the swapped path computes a different root (the
spec itself poses the different-root condition as its section 8 open
question). -/
theorem flipped_path_bit_fails_root_binding [Fact p.Prime]
    (compress : ZMod p → ZMod p → ZMod p) (c : MerkleSumTreeCircuit (ZMod p))
    (b0 : ZMod p) (rest : List (ZMod p))
    (hpi : c.path_indices = b0 :: rest)
    (h1 : c.path_element_hashes.length = c.path_element_balances.length)
    (h2 : c.path_indices.length = c.path_element_balances.length)
    (a0 a1 a2 a3 : ZMod p)
    (hv : verify compress c a0 a1 a2 a3 = true)
    (hroot : (specFold compress (c.leaf_hash, c.leaf_balance)
        (circuitSteps { c with path_indices := (1 - b0) :: rest })).1 ≠ a2) :
    ((traceOf compress (c.leaf_hash, c.leaf_balance)
        (circuitSteps { c with path_indices := (1 - b0) :: rest })).all
        (layerOk compress) = true) ∧
    (specFold compress (c.leaf_hash, c.leaf_balance)
        (circuitSteps { c with path_indices := (1 - b0) :: rest })).2 =
      (specFold compress (c.leaf_hash, c.leaf_balance) (circuitSteps c)).2 ∧
    verify compress { c with path_indices := (1 - b0) :: rest } a0 a1 a2 a3
      = false := by
  have hlen : rest.length + 1 = c.path_element_balances.length := by
    rw [← h2, hpi, List.length_cons]
  obtain ⟨ss, peb, hpeb⟩ : ∃ ss peb, c.path_element_balances = ss :: peb := by
    cases hc : c.path_element_balances with
    | nil => rw [hc] at hlen; cases hlen
    | cons x xs => exact ⟨x, xs, rfl⟩
  obtain ⟨sh, peh, hpeh⟩ : ∃ sh peh, c.path_element_hashes = sh :: peh := by
    have hh : c.path_element_hashes.length = rest.length + 1 := by
      rw [h1, ← hlen]
    cases hc : c.path_element_hashes with
    | nil => rw [hc] at hh; cases hh
    | cons x xs => exact ⟨x, xs, rfl⟩
  have h3 : c.path_element_balances ≠ [] := by rw [hpeb]; simp
  have hsteps : circuitSteps c = (sh, ss, b0) :: (peh.zip (peb.zip rest)) := by
    unfold circuitSteps
    rw [hpeh, hpeb, hpi]
    rfl
  have hsteps2 : circuitSteps { c with path_indices := (1 - b0) :: rest } =
      (sh, ss, 1 - b0) :: (peh.zip (peb.zip rest)) := by
    unfold circuitSteps
    rw [hpeh, hpeb]
    rfl
  have ht := (verify_iff compress c a0 a1 a2 a3 h1.symm.le h2.symm.le h3).mp hv
  have hbits := ht.2.2.1
  have hb0 : b0 = 0 ∨ b0 = 1 := by
    have := hbits (sh, ss, b0) (by rw [hsteps]; exact List.mem_cons_self _ _)
    exact this
  have hbits2 : ∀ st ∈ circuitSteps { c with path_indices := (1 - b0) :: rest },
      st.2.2 = 0 ∨ st.2.2 = 1 := by
    rw [hsteps2]
    intro st hst
    rcases List.mem_cons.mp hst with rfl | hmem
    · rcases hb0 with rfl | rfl
      · right; norm_num
      · left; norm_num
    · exact hbits st (by rw [hsteps]; exact List.mem_cons_of_mem _ hmem)
  have hstep_sum : (specStep compress (c.leaf_hash, c.leaf_balance)
        (sh, ss, 1 - b0)).2 =
      (specStep compress (c.leaf_hash, c.leaf_balance) (sh, ss, b0)).2 := by
    rcases hb0 with rfl | rfl <;>
      simp [specStep, one_ne_zero, sub_self, sub_zero, add_comm]
  have hsum : (specFold compress (c.leaf_hash, c.leaf_balance)
        (circuitSteps { c with path_indices := (1 - b0) :: rest })).2 =
      (specFold compress (c.leaf_hash, c.leaf_balance) (circuitSteps c)).2 := by
    rw [hsteps, hsteps2]
    simp only [specFold, List.foldl_cons]
    exact specFold_snd_congr compress _ _ _ hstep_sum
  refine ⟨?_, hsum, ?_⟩
  · rw [hsteps2]
    rw [traceOf_all_iff compress _ _]
    rw [← hsteps2]
    exact hbits2
  · rcases Bool.eq_false_or_eq_true
        (verify compress { c with path_indices := (1 - b0) :: rest } a0 a1 a2 a3)
      with ht2 | hf2
    · have h1b : ({ c with path_indices := (1 - b0) :: rest } :
          MerkleSumTreeCircuit (ZMod p)).path_element_balances.length ≤
          ({ c with path_indices := (1 - b0) :: rest } :
          MerkleSumTreeCircuit (ZMod p)).path_element_hashes.length := h1.symm.le
      have h2b : ({ c with path_indices := (1 - b0) :: rest } :
          MerkleSumTreeCircuit (ZMod p)).path_element_balances.length ≤
          ({ c with path_indices := (1 - b0) :: rest } :
          MerkleSumTreeCircuit (ZMod p)).path_indices.length := by
        show c.path_element_balances.length ≤ ((1 - b0) :: rest).length
        simp only [List.length_cons]
        exact hlen.ge
      have h3b : ({ c with path_indices := (1 - b0) :: rest } :
          MerkleSumTreeCircuit (ZMod p)).path_element_balances ≠ [] := h3
      rw [verify_iff compress { c with path_indices := (1 - b0) :: rest }
        a0 a1 a2 a3 h1b h2b h3b] at ht2
      exact absurd ht2.2.2.2.1 hroot
    · exact hf2

/-- Witness for C7: flipping the single path bit of the honest depth-one
instance from 0 to 1 keeps the gate constraints satisfied and the sum
unchanged, yet verification fails (the flipped root is
`compressEx 3 1 = 14 ≠ 16`). -/
theorem flipped_path_bit_fails_root_binding_witness :
    ((traceOf compressEx (cValid.leaf_hash, cValid.leaf_balance)
        (circuitSteps { cValid with path_indices := [1 - 0] })).all
        (layerOk compressEx) = true) ∧
    (specFold compressEx (cValid.leaf_hash, cValid.leaf_balance)
        (circuitSteps { cValid with path_indices := [1 - 0] })).2 =
      (specFold compressEx (cValid.leaf_hash, cValid.leaf_balance)
        (circuitSteps cValid)).2 ∧
    verify compressEx { cValid with path_indices := [1 - 0] } 1 2 16 50
      = false :=
  flipped_path_bit_fails_root_binding compressEx cValid 0 [] (by decide)
    (by decide) (by decide) 1 2 16 50 (by decide) (by decide)

/-- The BN254 scalar-field modulus used by the repository's `Fr` field
elements. -/
def bigP : ℕ :=
  21888242871839275222246405745257275088548364400416034343698204186575808495617

/-- Modelled from the spec: the integer-to-field mapping `big_int_to_fp` of the
off-circuit numeric model (section 2, component 1); the Rust function lives in
the `merkle_sum_tree` module, outside the given sources. -/
def bigIntToFp (n : ℕ) : ZMod bigP := (n : ZMod bigP)

/-- The liabilities sum of the over-64-bit test tree
(`test_valid_merkle_sum_tree_2`). -/
def liab : ℕ := 18446744073710096590

def compressB : ZMod bigP → ZMod bigP → ZMod bigP := fun a b => a + 2 * b + 1

/-- A depth-one instance over the BN254 scalar field whose balances aggregate
to the over-64-bit liabilities sum, with `assets_sum = liabilities + 1`. -/
def cBig : MerkleSumTreeCircuit (ZMod bigP) :=
  { leaf_hash := 7, leaf_balance := bigIntToFp (liab - 5)
    path_element_hashes := [9], path_element_balances := [bigIntToFp 5]
    path_indices := [0]
    assets_sum := bigIntToFp (liab + 1), root_hash := 26 }

/-- Claim C8: balances beyond the 64-bit range (liabilities sum
`18446744073710096590 ≈ 1.8 × 10^19`) survive the integer-to-field mapping
with no loss of precision, and with `assets_sum = liabilities + 1` the sum
aggregation and the strict solvency check hold exactly: the synthesized final
sum is the field image of the liabilities sum and verification succeeds. -/
theorem big_balance_exact :
    (bigIntToFp liab).val = liab ∧
    (bigIntToFp (liab + 1)).val = liab + 1 ∧
    (synthesize compressB cBig).map (fun r => r.2.2) = some (bigIntToFp liab) ∧
    verify compressB cBig cBig.leaf_hash cBig.leaf_balance cBig.root_hash
      cBig.assets_sum = true := by
  decide

/-- Claim C9: two circuit instances differing only in their `root_hash` and
`assets_sum` struct fields produce identical synthesis — `synthesize` never
reads those fields — and identical verification outcomes against every public
input vector: the public root and the comparator bound come from the instance
column only. -/
theorem synthesize_ignores_root_and_assets
    (compress : ZMod p → ZMod p → ZMod p) (c : MerkleSumTreeCircuit (ZMod p))
    (r a : ZMod p) :
    synthesize compress { c with root_hash := r, assets_sum := a } =
      synthesize compress c ∧
    ∀ a0 a1 a2 a3 : ZMod p,
      verify compress { c with root_hash := r, assets_sum := a } a0 a1 a2 a3 =
        verify compress c a0 a1 a2 a3 := by
  exact ⟨rfl, fun a0 a1 a2 a3 => rfl⟩

/-- Claim C10: `without_witnesses` returns the derived default instance — zero
leaf hash and balance, empty path vectors, zero `assets_sum` and `root_hash` —
independent of the receiver's witness data. -/
theorem without_witnesses_is_default {F : Type} [Zero F]
    (c c' : MerkleSumTreeCircuit F) :
    without_witnesses c = defaultCircuit ∧
    without_witnesses c = without_witnesses c' ∧
    (without_witnesses c).leaf_hash = 0 ∧
    (without_witnesses c).leaf_balance = 0 ∧
    (without_witnesses c).path_element_hashes = [] ∧
    (without_witnesses c).path_element_balances = [] ∧
    (without_witnesses c).path_indices = [] ∧
    (without_witnesses c).assets_sum = 0 ∧
    (without_witnesses c).root_hash = 0 :=
  ⟨rfl, rfl, rfl, rfl, rfl, rfl, rfl, rfl, rfl⟩

end SummaSolvency
